import Mathlib

/-!
Shallow embedding of the HKDF (RFC 5869) extract-and-expand implementation
in `src/main.rs` of toidiu/hkdf-rs, together with correctness theorems.

Byte sequences are modelled as `List Nat` (each element one byte value).
The external HMAC primitive (`aws_lc_rs::hmac`) is an abstract function
from a key and a message to a digest; theorems that need it assume only
what `hmac::sign` guarantees for `HMAC_SHA256`, namely that every digest
is exactly `digestLength = 32` bytes.
-/

namespace Hkdf

/-- Digest length of HMAC-SHA256: `ALGO_HMAC.len()` in the source. -/
def digestLength : Nat := 32

/-- An abstract keyed-MAC primitive, key then message to digest.  Models
`hmac::sign(&hmac::Key::new(ALGO_HMAC, key), msg)` from `aws_lc_rs`. -/
abbrev Mac : Type := List Nat → List Nat → List Nat

/-- The property `aws_lc_rs` guarantees for `hmac::sign` with
`HMAC_SHA256`: every digest is exactly `digestLength` bytes. -/
def MacLen (mac : Mac) : Prop := ∀ key msg, (mac key msg).length = digestLength

/-- Embedding of `fn extract(salt: &[u8], ikm: &Ikm) -> Prk` from the
source: `PRK = HMAC-Hash(salt, IKM)`. -/
def extract (mac : Mac) (salt ikm : List Nat) : List Nat := mac salt ikm

/-- Value of the IEEE-754 binary64 number produced by converting the
natural number `n` to `f64` (Rust `n as f64`).  The conversion rounds to
nearest, ties to even, keeping a 53-bit significand: for `n < 2 ^ 53` it
is exact, otherwise `n` is rounded at bit position `n.log2 - 52` (one
unit in the last place is `2 ^ (n.log2 - 52)`). -/
def roundF64 (n : Nat) : Nat :=
  if n < 2 ^ 53 then n
  else if 2 * (n % 2 ^ (n.log2 - 52)) < 2 ^ (n.log2 - 52) then
    n / 2 ^ (n.log2 - 52) * 2 ^ (n.log2 - 52)
  else if 2 ^ (n.log2 - 52) < 2 * (n % 2 ^ (n.log2 - 52)) then
    (n / 2 ^ (n.log2 - 52) + 1) * 2 ^ (n.log2 - 52)
  else if n / 2 ^ (n.log2 - 52) % 2 = 0 then
    n / 2 ^ (n.log2 - 52) * 2 ^ (n.log2 - 52)
  else
    (n / 2 ^ (n.log2 - 52) + 1) * 2 ^ (n.log2 - 52)

/-- The block count `n` of `expand` in the source:
`(len as f64 / ALGO_HMAC.len() as f64).ceil() as u64`.
`len as f64` is `roundF64 len`.  Dividing a binary64 by `32 = 2 ^ 5` only
decreases its exponent by 5 and is exact, so the quotient is the exact
rational `roundF64 len / 32`; `ceil` of that value is the integer
`(roundF64 len + 31) / 32`, which is itself exactly representable and,
for any `usize` input, far below `u64::MAX`, so the float `ceil` and the
cast `as u64` both return it unchanged. -/
def blockCount (len : Nat) : Nat := (roundF64 len + 31) / 32

/-- The `for i in 1..=n` loop of `expand`, run for counters `1, ..., k`:
returns `(prev_t, okm, c)` where `prev_t` is the chaining value after
iteration `k` (`T(0)`, the empty string, for `k = 0`), `okm` is the
accumulated `T(1) | ... | T(k)`, and `c` is the number of `hmac::sign`
invocations performed.  The counter byte appended in iteration `i` is `i`
itself: inside `expand` the loop only runs with `k < 255`, so the `u8`
counter never wraps. -/
def expandLoop (mac : Mac) (prk info : List Nat) : Nat → List Nat × List Nat × Nat
  | 0 => ([], [], 0)
  | k + 1 =>
    let s := expandLoop mac prk info k
    let t := mac prk (s.1 ++ info ++ [k + 1])
    (t, s.2.1 ++ t, s.2.2 + 1)

/-- Embedding of `fn expand(prk: &Prk, info: &[u8], len: usize) -> Okm`
from the source.  `none` models a panic: either the block-count assertion
`assert!(n < u8::MAX)` (note: strictly less than 255) or the final length
assertion `assert_eq!(okm.len(), len)` failing; `List.take len` models
`okm.into_iter().take(len).collect()`. -/
def expand (mac : Mac) (prk info : List Nat) (len : Nat) : Option (List Nat) :=
  let n := blockCount len
  if n < 255 then
    let okm := ((expandLoop mac prk info n).2.1).take len
    if okm.length = len then some okm else none
  else
    none

/-- Number of `hmac::sign` invocations a call `expand mac prk info len`
performs: zero when the block-count assertion aborts (the loop is never
entered), one per loop iteration otherwise. -/
def expandMacCalls (mac : Mac) (prk info : List Nat) (len : Nat) : Nat :=
  if blockCount len < 255 then (expandLoop mac prk info (blockCount len)).2.2 else 0

/-- RFC 5869 block `T(i)` exactly as the spec states it: `T(0)` is the
empty string and `T(i) = MAC(key=PRK, message = T(i-1) || info ||
single_byte(i))`, with the first block using byte value `0x01`. -/
def specT (mac : Mac) (prk info : List Nat) : Nat → List Nat
  | 0 => []
  | i + 1 => mac prk (specT mac prk info i ++ info ++ [i + 1])

/-- Concatenation `T(1) || T(2) || ... || T(k)` of the RFC 5869 blocks. -/
def specTcat (mac : Mac) (prk info : List Nat) : Nat → List Nat
  | 0 => []
  | i + 1 => specTcat mac prk info i ++ specT mac prk info (i + 1)

/-- The RFC 5869 Expand algorithm exactly as the spec states it:
`N = ceil(L / digest_length)` chained blocks, and the result is the first
`L` bytes of `T(1) || ... || T(N)`. -/
def specExpand (mac : Mac) (prk info : List Nat) (len : Nat) : List Nat :=
  (specTcat mac prk info ((len + digestLength - 1) / digestLength)).take len

/-- Modelled from the spec: the trusted reference HKDF oracle of section
4.3 (`aws_lc_rs::hkdf`, HKDF-SHA256), an independent implementation with
the contract `hkdf(salt, ikm, info, L) -> bytes[L]` computing RFC 5869
extract-then-expand over the same HMAC primitive. -/
def referenceHkdf (mac : Mac) (salt ikm info : List Nat) (len : Nat) : List Nat :=
  specExpand mac (mac salt ikm) info len

/-- A concrete MAC used to evaluate the embedding on closed inputs: it
returns a fixed all-zero 32-byte digest, so it satisfies `MacLen`. -/
def macZero : Mac := fun _ _ => List.replicate 32 0

/-- The bytes of `"secret input keying material"` (all ASCII), the `ikm`
of `main`. -/
def ikmBytes : List Nat := "secret input keying material".data.map Char.toNat

/-- The bytes of `"implement hkdf from scratch using hmac!!"` (all
ASCII), the `info` of `main`. -/
def infoBytes : List Nat := "implement hkdf from scratch using hmac!!".data.map Char.toNat

theorem macZero_maclen : MacLen macZero := by
  intro key msg
  simp [macZero, digestLength]

theorem expandLoop_fst (mac : Mac) (prk info : List Nat) (k : Nat) :
    (expandLoop mac prk info k).1 = specT mac prk info k := by
  induction k with
  | zero => rfl
  | succ k ih => simp [expandLoop, specT, ih]

theorem expandLoop_acc (mac : Mac) (prk info : List Nat) (k : Nat) :
    (expandLoop mac prk info k).2.1 = specTcat mac prk info k := by
  induction k with
  | zero => rfl
  | succ k ih => simp [expandLoop, specTcat, specT, ih, expandLoop_fst]

theorem expandLoop_count (mac : Mac) (prk info : List Nat) (k : Nat) :
    (expandLoop mac prk info k).2.2 = k := by
  induction k with
  | zero => rfl
  | succ k ih => simp [expandLoop, ih]

theorem specTcat_length (mac : Mac) (h : MacLen mac) (prk info : List Nat) (k : Nat) :
    (specTcat mac prk info k).length = digestLength * k := by
  induction k with
  | zero => simp [specTcat]
  | succ k ih =>
    simp only [specTcat, specT, List.length_append, ih]
    rw [h]
    ring

theorem specTcat_add (mac : Mac) (prk info : List Nat) (k j : Nat) :
    ∃ r, specTcat mac prk info (k + j) = specTcat mac prk info k ++ r := by
  induction j with
  | zero => exact ⟨[], by simp⟩
  | succ j ih =>
    obtain ⟨r, hr⟩ := ih
    exact ⟨r ++ specT mac prk info (k + j + 1), by
      simp [specTcat, hr]⟩

theorem specTcat_take (mac : Mac) (h : MacLen mac) (prk info : List Nat)
    (k j m : Nat) (hm : m ≤ digestLength * k) :
    (specTcat mac prk info (k + j)).take m = (specTcat mac prk info k).take m := by
  obtain ⟨r, hr⟩ := specTcat_add mac prk info k j
  rw [hr, List.take_append_eq_append_take]
  have hz : m - (specTcat mac prk info k).length = 0 := by
    rw [specTcat_length mac h]
    omega
  rw [hz]
  simp

theorem roundF64_small (n : Nat) (h : n < 2 ^ 53) : roundF64 n = n := by
  rw [roundF64, if_pos h]

theorem roundF64_large (n : Nat) (h : 2 ^ 53 ≤ n) : 2 ^ 53 ≤ roundF64 n := by
  have hn0 : n ≠ 0 := by
    intro hc
    rw [hc] at h
    exact absurd h (by norm_num)
  have hl : 53 ≤ n.log2 := (Nat.le_log2 hn0).2 h
  have he1 : 1 ≤ n.log2 - 52 := by omega
  have hq : 2 ^ 52 ≤ n / 2 ^ (n.log2 - 52) := by
    have h1 : 2 ^ n.log2 ≤ n := Nat.log2_self_le hn0
    have h2 : 2 ^ n.log2 / 2 ^ (n.log2 - 52) ≤ n / 2 ^ (n.log2 - 52) :=
      Nat.div_le_div_right h1
    have h3 : 2 ^ n.log2 / 2 ^ (n.log2 - 52) = 2 ^ 52 := by
      rw [Nat.pow_div (by omega) (by norm_num)]
      congr 1
      omega
    omega
  have key : ∀ q : Nat, 2 ^ 52 ≤ q → 2 ^ 53 ≤ q * 2 ^ (n.log2 - 52) := by
    intro q hq52
    calc (2 : Nat) ^ 53 = 2 ^ 52 * 2 ^ 1 := by norm_num
    _ ≤ q * 2 ^ (n.log2 - 52) :=
      Nat.mul_le_mul hq52 (Nat.pow_le_pow_right (by norm_num) he1)
  rw [roundF64, if_neg (Nat.not_lt.mpr h)]
  split
  · exact key _ hq
  · split
    · exact key _ (Nat.le_trans hq (Nat.le_succ _))
    · split
      · exact key _ hq
      · exact key _ (Nat.le_trans hq (Nat.le_succ _))

theorem blockCount_lt_iff (len : Nat) :
    blockCount len < 255 ↔ len ≤ 254 * digestLength := by
  have hd : 254 * digestLength = 8128 := by norm_num [digestLength]
  rw [hd]
  constructor
  · intro h
    by_contra hlen
    push_neg at hlen
    rcases Nat.lt_or_ge len (2 ^ 53) with hs | hs
    · rw [blockCount, roundF64_small len hs] at h
      omega
    · have hbig := roundF64_large len hs
      rw [blockCount] at h
      have h53 : (2 : Nat) ^ 53 = 9007199254740992 := by norm_num
      rw [h53] at hbig
      omega
  · intro h
    have hs : len < 2 ^ 53 := by
      have h53 : (2 : Nat) ^ 53 = 9007199254740992 := by norm_num
      omega
    rw [blockCount, roundF64_small len hs]
    omega

theorem blockCount_eq_ceil (len : Nat) (h : len ≤ 254 * digestLength) :
    blockCount len = (len + digestLength - 1) / digestLength := by
  have hd : 254 * digestLength = 8128 := by norm_num [digestLength]
  have hs : len < 2 ^ 53 := by
    have h53 : (2 : Nat) ^ 53 = 9007199254740992 := by norm_num
    omega
  rw [blockCount, roundF64_small len hs]
  norm_num [digestLength]

theorem expand_eq_specExpand (mac : Mac) (h : MacLen mac) (prk info : List Nat)
    (len : Nat) (hlen : len ≤ 254 * digestLength) :
    expand mac prk info len = some (specExpand mac prk info len) ∧
      (specExpand mac prk info len).length = len := by
  have hn : blockCount len < 255 := (blockCount_lt_iff len).2 hlen
  have hbc : blockCount len = (len + digestLength - 1) / digestLength :=
    blockCount_eq_ceil len hlen
  have hlenN : len ≤ digestLength * ((len + digestLength - 1) / digestLength) := by
    have hd : digestLength = 32 := rfl
    rw [hd]
    omega
  have hcatlen : (specTcat mac prk info ((len + digestLength - 1) / digestLength)).length
      = digestLength * ((len + digestLength - 1) / digestLength) :=
    specTcat_length mac h prk info _
  have htake : (specExpand mac prk info len).length = len := by
    rw [specExpand, List.length_take, hcatlen]
    omega
  refine ⟨?_, htake⟩
  rw [expand]
  simp only [hbc]
  rw [if_pos (hbc ▸ hn)]
  rw [expandLoop_acc]
  have hgoal : (specTcat mac prk info ((len + digestLength - 1) / digestLength)).take len
      = specExpand mac prk info len := rfl
  rw [hgoal, if_pos htake]


/-- C1: the spec says `expand` aborts exactly when `L` exceeds
`255 * digest_length`, with `L = 255 * digest_length = 8160` succeeding.
The code instead asserts `n < u8::MAX`, i.e. `n < 255`, so it already
panics at `L = 8160` (where `n = 255`): the largest accepted length is
`254 * digest_length = 8128`.  This theorem evaluates the embedding at
the boundary: `L = 8160` and `L = 8161` panic, `L = 8128` succeeds. -/
theorem C1_expand_boundary :
    expand macZero [] [] (255 * digestLength) = none ∧
      expand macZero [] [] (255 * digestLength + 1) = none ∧
      (expand macZero [] [] (254 * digestLength)).isSome = true := by
  refine ⟨by decide, by decide, ?_⟩
  have h := expand_eq_specExpand macZero macZero_maclen [] [] (254 * digestLength)
    (Nat.le_refl _)
  rw [h.1]
  rfl

/-- C2 counterexample: `L = 255 * digest_length = 8160` satisfies the
claimed precondition `L ≤ 255 * digest_length`, yet `expand` panics
(models as `none`) instead of computing the RFC 5869 Expand value. -/
theorem C2_cex_panic_inside_precondition :
    expand macZero [] [0] (255 * digestLength) = none := by
  decide

/-- C2 (amended): for every PRK, every info and every
`L ≤ 254 * digest_length` — the largest length the block-count assertion
accepts — `expand` computes exactly the RFC 5869 Expand algorithm:
`N = ceil(L / digest_length)` chained blocks
`T(i) = MAC(key=PRK, message = T(i-1) || info || single_byte(i))` with
`T(0)` empty, truncated to the first `L` bytes. -/
theorem C2_expand_matches_rfc (mac : Mac) (h : MacLen mac) (prk info : List Nat)
    (len : Nat) (hlen : len ≤ 254 * digestLength) :
    expand mac prk info len = some (specExpand mac prk info len) :=
  (expand_eq_specExpand mac h prk info len hlen).1

/-- C2 witness: the amended theorem applied at a concrete input. -/
theorem C2_witness : expand macZero [] [] 5 = some (specExpand macZero [] [] 5) :=
  C2_expand_matches_rfc macZero macZero_maclen [] [] 5 (by decide)

/-- C3 counterexample: `L = 255 * digest_length = 8160` is inside the
claimed valid range `[0, 255 * digest_length]`, yet `expand` panics and
returns no OKM at all, so no OKM of length `L` is produced. -/
theorem C3_cex_no_okm_at_top_of_range :
    expand macZero [7] [] (255 * digestLength) = none := by
  decide

/-- C3 (amended): for every `L` in `[0, 254 * digest_length]` (the range
the code accepts) and every PRK and info, `expand` returns an OKM of
length exactly `L`; in particular `L = 0` yields the empty OKM. -/
theorem C3_okm_length_exact (mac : Mac) (h : MacLen mac) (prk info : List Nat)
    (len : Nat) (hlen : len ≤ 254 * digestLength) :
    (∃ okm, expand mac prk info len = some okm ∧ okm.length = len) ∧
      expand mac prk info 0 = some [] := by
  obtain ⟨he, hl⟩ := expand_eq_specExpand mac h prk info len hlen
  refine ⟨⟨specExpand mac prk info len, he, hl⟩, ?_⟩
  have h0 := expand_eq_specExpand mac h prk info 0 (Nat.zero_le _)
  rw [h0.1]
  simp [specExpand]

/-- C3 witness: the amended theorem applied at a concrete input. -/
theorem C3_witness :
    (∃ okm, expand macZero [] [] 33 = some okm ∧ okm.length = 33) ∧
      expand macZero [] [] 0 = some [] :=
  C3_okm_length_exact macZero macZero_maclen [] [] 33 (by decide)

/-- C4: for every salt and every input keying material, including empty
ones, `extract` succeeds (it is total), returns exactly
`PRK = MAC(key=salt, message=ikm)`, and the PRK is exactly one digest
(32 bytes) long. -/
theorem C4_extract_is_mac (mac : Mac) (h : MacLen mac) (salt ikm : List Nat) :
    extract mac salt ikm = mac salt ikm ∧
      (extract mac salt ikm).length = digestLength :=
  ⟨rfl, h salt ikm⟩

/-- C4 witness: the theorem applied at concrete (empty) inputs. -/
theorem C4_witness :
    extract macZero [] [] = macZero [] [] ∧
      (extract macZero [] []).length = digestLength :=
  C4_extract_is_mac macZero macZero_maclen [] []

/-- C5 counterexample: the pair `L1 = 64 < L2 = 255 * digest_length`
is inside the claimed valid range, but `expand` panics at `L2`, so
`expand` at `L1` cannot equal the first `L1` bytes of a successful
`expand` at `L2`. -/
theorem C5_cex_no_okm_for_larger_length :
    ¬ ∃ o1 o2, expand macZero [] [] 64 = some o1 ∧
        expand macZero [] [] (255 * digestLength) = some o2 ∧ o1 = o2.take 64 := by
  rintro ⟨o1, o2, _, h2, _⟩
  have hnone : expand macZero [] [] (255 * digestLength) = none := by decide
  rw [hnone] at h2
  exact Option.noConfusion h2

/-- C5 (amended): for fixed PRK and info and every pair of lengths
`L1 < L2 ≤ 254 * digest_length` (the range the code accepts), the OKM for
`L1` equals the first `L1` bytes of the OKM for `L2`. -/
theorem C5_okm_of_shorter_length_is_a_common_start (mac : Mac) (h : MacLen mac)
    (prk info : List Nat) (L1 L2 : Nat) (h12 : L1 < L2)
    (h2 : L2 ≤ 254 * digestLength) :
    ∃ o1 o2, expand mac prk info L1 = some o1 ∧ expand mac prk info L2 = some o2 ∧
      o1 = o2.take L1 := by
  have h1 : L1 ≤ 254 * digestLength := Nat.le_trans (Nat.le_of_lt h12) h2
  obtain ⟨e1, l1⟩ := expand_eq_specExpand mac h prk info L1 h1
  obtain ⟨e2, l2⟩ := expand_eq_specExpand mac h prk info L2 h2
  refine ⟨_, _, e1, e2, ?_⟩
  have hN : (L1 + digestLength - 1) / digestLength ≤ (L2 + digestLength - 1) / digestLength :=
    Nat.div_le_div_right (by omega)
  have hL1 : L1 ≤ digestLength * ((L1 + digestLength - 1) / digestLength) := by
    have hd : digestLength = 32 := rfl
    rw [hd]
    omega
  rw [specExpand, specExpand, List.take_take, Nat.min_eq_left (Nat.le_of_lt h12)]
  have hsplit : (L2 + digestLength - 1) / digestLength
      = (L1 + digestLength - 1) / digestLength
        + ((L2 + digestLength - 1) / digestLength - (L1 + digestLength - 1) / digestLength) := by
    omega
  rw [hsplit, specTcat_take mac h prk info _ _ L1 hL1]

/-- C5 witness: the amended theorem applied at concrete lengths. -/
theorem C5_witness :
    ∃ o1 o2, expand macZero [] [] 32 = some o1 ∧ expand macZero [] [] 33 = some o2 ∧
      o1 = o2.take 32 :=
  C5_okm_of_shorter_length_is_a_common_start macZero macZero_maclen [] [] 32 33
    (by decide) (by decide)

/-- C6: for the concrete inputs of `main` — ikm the bytes of
`"secret input keying material"`, empty salt, info the bytes of
`"implement hkdf from scratch using hmac!!"`, and `L = 32` — the custom
extract-then-expand pipeline produces byte-for-byte the same 32-byte OKM
as the reference HKDF oracle built over the same HMAC primitive, so the
final `assert_eq!` of `main` holds and the program exits successfully.
Stated for every MAC whose digests are 32 bytes, hence in particular for
HMAC-SHA256. -/
theorem C6_concrete_pipeline_matches_reference (mac : Mac) (h : MacLen mac) :
    expand mac (extract mac [] ikmBytes) infoBytes digestLength
      = some (referenceHkdf mac [] ikmBytes infoBytes digestLength) ∧
    (referenceHkdf mac [] ikmBytes infoBytes digestLength).length = digestLength :=
  expand_eq_specExpand mac h (mac [] ikmBytes) infoBytes digestLength (by decide)

/-- C6 witness: the theorem applied to a concrete MAC. -/
theorem C6_witness :
    expand macZero (extract macZero [] ikmBytes) infoBytes digestLength
      = some (referenceHkdf macZero [] ikmBytes infoBytes digestLength) ∧
    (referenceHkdf macZero [] ikmBytes infoBytes digestLength).length = digestLength :=
  C6_concrete_pipeline_matches_reference macZero macZero_maclen

/-- C7: Extract and Expand are deterministic: two runs of extract followed
by expand on the same fixed `(salt, ikm, info, L)` (and the same MAC
primitive) yield identical PRKs and identical OKMs. -/
theorem C7_deterministic (mac : Mac) (salt ikm info : List Nat) (len : Nat)
    (p1 p2 : List Nat) (o1 o2 : Option (List Nat))
    (h1 : p1 = extract mac salt ikm) (h2 : p2 = extract mac salt ikm)
    (g1 : o1 = expand mac p1 info len) (g2 : o2 = expand mac p2 info len) :
    p1 = p2 ∧ o1 = o2 := by
  subst h1
  subst h2
  subst g1
  subst g2
  exact ⟨rfl, rfl⟩

/-- C7 witness: the theorem applied at concrete inputs. -/
theorem C7_witness :
    extract macZero [] [] = extract macZero [] [] ∧
      expand macZero (extract macZero [] []) [] 1
        = expand macZero (extract macZero [] []) [] 1 :=
  C7_deterministic macZero [] [] [] 1 (extract macZero [] []) (extract macZero [] [])
    (expand macZero (extract macZero [] []) [] 1)
    (expand macZero (extract macZero [] []) [] 1) rfl rfl rfl rfl

/-- C8 counterexample: at `L = 255 * digest_length` (a valid length per
the spec, with `ceil(L / digest_length) = 255`), `expand` performs zero
MAC invocations — the block-count assertion aborts before the loop — not
the claimed `N = 255`. -/
theorem C8_cex_zero_calls_at_top_of_range :
    expandMacCalls macZero [] [] (255 * digestLength) = 0 ∧
      (255 * digestLength + digestLength - 1) / digestLength = 255 := by
  constructor
  · decide
  · decide

/-- C8 (amended): for every `L ≤ 254 * digest_length` (the range the code
accepts), `expand` terminates (the embedding is a total function) and
performs exactly `N = ceil(L / digest_length)` MAC invocations, which is
at most 255; and `L = digest_length` produces exactly one MAC block with
no truncation: the OKM is the full first block
`MAC(key=PRK, message = info || 0x01)`. -/
theorem C8_expand_mac_call_count (mac : Mac) (h : MacLen mac) (prk info : List Nat)
    (len : Nat) (hlen : len ≤ 254 * digestLength) :
    expandMacCalls mac prk info len = (len + digestLength - 1) / digestLength ∧
      (len + digestLength - 1) / digestLength ≤ 255 ∧
      expand mac prk info digestLength = some (mac prk (info ++ [1])) := by
  have hn : blockCount len < 255 := (blockCount_lt_iff len).2 hlen
  have hbc : blockCount len = (len + digestLength - 1) / digestLength :=
    blockCount_eq_ceil len hlen
  refine ⟨?_, ?_, ?_⟩
  · rw [expandMacCalls, if_pos hn, expandLoop_count, hbc]
  · have hd : digestLength = 32 := rfl
    rw [hd]
    have hd2 : 254 * digestLength = 8128 := by decide
    rw [hd2] at hlen
    omega
  · have h32 := expand_eq_specExpand mac h prk info digestLength (by decide)
    rw [h32.1]
    have hone : (digestLength + digestLength - 1) / digestLength = 1 := by decide
    rw [specExpand, hone]
    simp only [specTcat, specT, List.nil_append]
    rw [List.take_of_length_le (Nat.le_of_eq (h prk (info ++ [1])))]

/-- C8 witness: the amended theorem applied at a concrete input. -/
theorem C8_witness :
    expandMacCalls macZero [] [] 100 = (100 + digestLength - 1) / digestLength ∧
      (100 + digestLength - 1) / digestLength ≤ 255 ∧
      expand macZero [] [] digestLength = some (macZero [] ([] ++ [1])) :=
  C8_expand_mac_call_count macZero macZero_maclen [] [] 100 (by decide)

/-- C9: the floating-point block-count computation
`n = ceil(len as f64 / digest_length as f64) as u64` passes the assertion
`n < 255` if and only if `len ≤ 254 * digest_length`, and for every such
`len` the computed `n` equals the exact integer ceiling of
`len / digest_length`, with no rounding error (the conversion of such a
`len` to binary64 is exact, and dividing by `32 = 2 ^ 5` and taking
`ceil` are always exact). -/
theorem C9_float_block_count_exact (len : Nat) :
    (blockCount len < 255 ↔ len ≤ 254 * digestLength) ∧
      (len ≤ 254 * digestLength →
        blockCount len = (len + digestLength - 1) / digestLength) :=
  ⟨blockCount_lt_iff len, blockCount_eq_ceil len⟩

/-- C9 witness: the theorem applied at the boundary length 8128. -/
theorem C9_witness :
    (blockCount 8128 < 255 ↔ 8128 ≤ 254 * digestLength) ∧
      (8128 ≤ 254 * digestLength →
        blockCount 8128 = (8128 + digestLength - 1) / digestLength) :=
  C9_float_block_count_exact 8128

/-- C10: the final length assertion `assert_eq!(okm.len(), len)` of
`expand` can never fail: whenever the block-count assertion `n < 255`
passes, the buffer accumulated by the loop holds
`n * digest_length ≥ len` bytes, so taking the first `len` bytes yields
exactly `len` bytes and `expand` returns them. -/
theorem C10_final_assert_unreachable (mac : Mac) (h : MacLen mac)
    (prk info : List Nat) (len : Nat) (hn : blockCount len < 255) :
    len ≤ digestLength * blockCount len ∧
      ((expandLoop mac prk info (blockCount len)).2.1).length
        = digestLength * blockCount len ∧
      expand mac prk info len
        = some (((expandLoop mac prk info (blockCount len)).2.1).take len) ∧
      (((expandLoop mac prk info (blockCount len)).2.1).take len).length = len := by
  have hlen : len ≤ 254 * digestLength := (blockCount_lt_iff len).1 hn
  have hbc : blockCount len = (len + digestLength - 1) / digestLength :=
    blockCount_eq_ceil len hlen
  have hle : len ≤ digestLength * blockCount len := by
    rw [hbc]
    have hd : digestLength = 32 := rfl
    rw [hd]
    omega
  have hacclen : ((expandLoop mac prk info (blockCount len)).2.1).length
      = digestLength * blockCount len := by
    rw [expandLoop_acc, specTcat_length mac h]
  have htk : (((expandLoop mac prk info (blockCount len)).2.1).take len).length = len := by
    rw [List.length_take, hacclen]
    omega
  refine ⟨hle, hacclen, ?_, htk⟩
  rw [expand]
  simp only []
  rw [if_pos hn, if_pos htk]

/-- C10 witness: the theorem applied at a concrete input. -/
theorem C10_witness :
    40 ≤ digestLength * blockCount 40 ∧
      ((expandLoop macZero [] [] (blockCount 40)).2.1).length
        = digestLength * blockCount 40 ∧
      expand macZero [] [] 40
        = some (((expandLoop macZero [] [] (blockCount 40)).2.1).take 40) ∧
      (((expandLoop macZero [] [] (blockCount 40)).2.1).take 40).length = 40 :=
  C10_final_assert_unreachable macZero macZero_maclen [] [] 40 (by decide)

end Hkdf
